import Mathlib

/-!
Verification development for the `hashsearch` program (`src/main.rs`).

The program brute-force searches positive integers `n`, computing the
SHA-256 digest of `n`'s fixed-width (8-byte) little-endian encoding, and
reports those digests whose canonical 64-character lowercase hex rendering
ends in the requested number of zero characters.  Worker threads partition
the integer domain by start offset and stride, buffer matches per batch of
100 candidates, and send them over an unbounded channel to a coordinator
that prints the first `K` matches received.

This file shallowly embeds the program:
* machine bytes and words are `Nat` with explicit `% 256` / 64-bit bounds;
* the `transmute::<[u8; 32], [u64; 4]>` reinterpretation is little-endian
  grouping of 8 bytes per word (the target of the source is little-endian,
  and both the digest and the mask go through the same reinterpretation);
* the fallible channel receive is a list of messages in arrival order,
  where running out of messages models "all senders disconnected", and the
  panicking `.expect` of the coordinator is `Except.error` (a panic in the
  main thread aborts the process with a nonzero exit status);
* a worker's `send(..).is_err()` outcome is an oracle `accept` telling for
  each message whether the channel still has a receiver.
-/

/-- Little-endian value of a list of bytes: the head is the least
significant byte.  `leVal [b0, …, b7]` is the `u64` that the bytes
`b0 … b7` form on a little-endian target. -/
def leVal : List Nat → Nat
  | [] => 0
  | b :: bs => b + 256 * leVal bs

/-- The `transmute::<[u8; 32], [u64; 4]>` of `main.rs` (lines 71 and 104):
groups of 8 consecutive bytes become one 64-bit word, little-endian. -/
def wordsOfBytes (l : List Nat) : List Nat :=
  [leVal (l.take 8), leVal ((l.drop 8).take 8),
   leVal ((l.drop 16).take 8), leVal ((l.drop 24).take 8)]

/-- Byte `i` (for `i < 32`) produced by `std::array::from_fn` in
`make_check_mask` (`main.rs` lines 96-102): with
`bytes_to_check = num_zeros / 2 + num_zeros % 2` and `ri = 32 - i`,
the byte is `0x0f` when `ri == bytes_to_check` and the nibble count is odd,
`0xff` when `ri <= bytes_to_check`, and `0x00` otherwise. -/
def maskByte (Z i : Nat) : Nat :=
  let btc := Z / 2 + Z % 2
  let ri := 32 - i
  if ri = btc ∧ Z % 2 ≠ 0 then 0x0f
  else if ri ≤ btc then 0xff
  else 0x00

/-- The 32 mask bytes of `make_check_mask`. -/
def maskBytes (Z : Nat) : List Nat := (List.range 32).map (maskByte Z)

/-- `make_check_mask` (`main.rs` lines 95-105): builds the 32 mask bytes
and reinterprets them as `[u64; 4]`. -/
def make_check_mask (Z : Nat) : List Nat := wordsOfBytes (maskBytes Z)

/-- The worker's validity test (`main.rs` lines 70-73):
`hash.into_iter().zip(mask).all(|(hb, mb)| hb & mb == 0)` on the four
64-bit words of the digest and the mask. -/
def checkValid (digestWords maskWords : List Nat) : Bool :=
  (digestWords.zip maskWords).all fun p => p.1 &&& p.2 == 0

/-- The worker's per-candidate match predicate, on the digest's 32 bytes:
reinterpret as four words and test against the mask for `Z` zero nibbles. -/
def digestMatches (digestBytes : List Nat) (Z : Nat) : Bool :=
  checkValid (wordsOfBytes digestBytes) (make_check_mask Z)

/-- Modelled from the spec: the byte a mask conforming to §3's invariant
must have at position `i` — bits set exactly for the nibbles of byte `i`
that lie among the trailing `Z` hex nibbles of the canonical 64-character
digest string (byte `i` renders as hex characters `2i` and `2i+1`, high
nibble first), with the boundary byte keeping only its low 4 bits when `Z`
is odd. -/
def specTrailingNibbleByte (Z i : Nat) : Nat :=
  16 * (if 64 - Z ≤ 2 * i then 15 else 0) + (if 64 - Z ≤ 2 * i + 1 then 15 else 0)

/-- Number of set bits among the 64 bit positions of one word. -/
def bitCount64 (w : Nat) : Nat := ((List.range 64).filter (fun p => w.testBit p)).length

/-- Number of set bits of a 256-bit value given as four 64-bit words. -/
def bitCount256 (ws : List Nat) : Nat := (ws.map bitCount64).sum

/-- `C1` helper, decided once for all 65 relevant values of `Z`. -/
lemma mask_wf_bounded :
    ∀ Z < 65, bitCount256 (make_check_mask Z) = 4 * Z ∧
      maskBytes Z = (List.range 32).map (specTrailingNibbleByte Z) := by decide

/-- C1. Mask well-formedness: for every `0 ≤ Z ≤ 64`, the 256-bit mask
returned by `make_check_mask Z` has exactly `4·Z` bits set, and its bytes
are exactly the bytes whose set bits are the bit positions of the trailing
`Z` hex nibbles of the digest's canonical string form (boundary byte
masked `0x0f` when `Z` is odd); all other bits are zero. -/
theorem mask_wellformed (Z : Nat) (hZ : Z ≤ 64) :
    bitCount256 (make_check_mask Z) = 4 * Z ∧
      maskBytes Z = (List.range 32).map (specTrailingNibbleByte Z) :=
  mask_wf_bounded Z (by omega)

/-- Witness for C1 at `Z = 7`. -/
theorem mask_wellformed_witness :
    7 ≤ 64 ∧ (bitCount256 (make_check_mask 7) = 4 * 7 ∧
      maskBytes 7 = (List.range 32).map (specTrailingNibbleByte 7)) :=
  ⟨by decide, mask_wellformed 7 (by decide)⟩

/-- All mask bytes for `Z ≥ 64` are `0xff`: `bytes_to_check ≥ 32` while
`ri = 32 - i ≤ 32`, so the `ri <= bytes_to_check` arm always fires
(for `Z > 64` the `ri == bytes_to_check` arm is unreachable, and for
`Z = 64` the nibble count is even). -/
lemma maskByte_of_ge64 (Z i : Nat) (hZ : 64 ≤ Z) (hi : i < 32) :
    maskByte Z i = 0xff := by
  simp only [maskByte]
  split_ifs with h1 h2
  · omega
  · rfl
  · exfalso; omega

/-- For `Z ≥ 64` the mask is all ones: every word is `2^64 - 1`. -/
lemma make_check_mask_of_ge64 (Z : Nat) (hZ : 64 ≤ Z) :
    make_check_mask Z = List.replicate 4 (2 ^ 64 - 1) := by
  have hb : maskBytes Z = List.replicate 32 0xff := by
    unfold maskBytes
    apply List.ext_getElem
    · simp
    · intro i h1 h2
      simp only [List.getElem_map, List.getElem_range, List.getElem_replicate]
      exact maskByte_of_ge64 Z i hZ (by simpa using h1)
  unfold make_check_mask
  rw [hb]
  decide

/-- Counterexample to C8: at `num_zeros = 65` the mask builder does not
reject the input — it silently returns the all-ones mask, the very same
value it returns for `num_zeros = 64`. -/
theorem mask_oob_counterexample :
    make_check_mask 65 = List.replicate 4 (2 ^ 64 - 1) ∧
      make_check_mask 65 = make_check_mask 64 := by
  constructor
  · decide
  · decide

/-- C8 (amended). Out-of-range mask input: for every `num_zeros > 64`,
`make_check_mask` does not reject the input; it silently clamps,
returning the all-ones 256-bit mask — identical to its result for
`num_zeros = 64`. -/
theorem mask_oob_clamps (Z : Nat) (hZ : 64 < Z) :
    make_check_mask Z = List.replicate 4 (2 ^ 64 - 1) ∧
      make_check_mask Z = make_check_mask 64 := by
  refine ⟨make_check_mask_of_ge64 Z (by omega), ?_⟩
  rw [make_check_mask_of_ge64 Z (by omega), make_check_mask_of_ge64 64 (by omega)]

/-- Witness for amended C8 at `num_zeros = 65`. -/
theorem mask_oob_clamps_witness :
    64 < 65 ∧ (make_check_mask 65 = List.replicate 4 (2 ^ 64 - 1) ∧
      make_check_mask 65 = make_check_mask 64) :=
  ⟨by decide, mask_oob_clamps 65 (by decide)⟩

/-- C10. Implicit clamping: for every `num_zeros ≥ 64`, `make_check_mask`
returns the all-ones mask (all four words `0xFFFFFFFFFFFFFFFF`), the same
value as for `num_zeros = 64`.  The embedded function is total — the
source has no error path, panic, or rejection on any input. -/
theorem mask_clamp_ge64 (Z : Nat) (hZ : 64 ≤ Z) :
    make_check_mask Z = List.replicate 4 0xffffffffffffffff ∧
      make_check_mask Z = make_check_mask 64 := by
  refine ⟨?_, ?_⟩
  · have := make_check_mask_of_ge64 Z hZ
    simpa using this
  · rw [make_check_mask_of_ge64 Z hZ, make_check_mask_of_ge64 64 (by omega)]

/-- Witness for C10 at `num_zeros = 100`. -/
theorem mask_clamp_ge64_witness :
    64 ≤ 100 ∧ (make_check_mask 100 = List.replicate 4 0xffffffffffffffff ∧
      make_check_mask 100 = make_check_mask 64) :=
  ⟨by decide, mask_clamp_ge64 100 (by decide)⟩

/-- `BATCH_SIZE` (`main.rs` line 44). -/
def BATCH_SIZE : Nat := 100

/-- Worker `i`'s initial cursor (`main.rs` line 54):
`let mut start = BATCH_SIZE * i + 1`. -/
def workerStart (i : Nat) : Nat := BATCH_SIZE * i + 1

/-- End-of-batch cursor advance (`main.rs` line 86):
`start += BATCH_SIZE * workers`. -/
def cursorAdvance (start W : Nat) : Nat := start + BATCH_SIZE * W

/-- Worker `i`'s cursor at the beginning of its `j`-th batch, obtained by
iterating the end-of-batch advance from the initial cursor. -/
def batchStart (W i : Nat) : Nat → Nat
  | 0 => workerStart i
  | j + 1 => cursorAdvance (batchStart W i j) W

/-- The candidates of one batch (`main.rs` line 58):
`for n in start..start + BATCH_SIZE`. -/
def batchCandidates (start : Nat) : List Nat :=
  (List.range BATCH_SIZE).map (start + ·)

lemma batchStart_eq (W i j : Nat) :
    batchStart W i j = 100 * i + 1 + j * (100 * W) := by
  induction j with
  | zero => simp [batchStart, workerStart, BATCH_SIZE]
  | succ j ih =>
    simp only [batchStart, cursorAdvance, ih, BATCH_SIZE]
    ring

lemma mem_batchCandidates {n start : Nat} :
    n ∈ batchCandidates start ↔ ∃ t, t < 100 ∧ n = start + t := by
  simp only [batchCandidates, List.mem_map, List.mem_range, BATCH_SIZE]
  constructor
  · rintro ⟨t, ht, rfl⟩; exact ⟨t, ht, rfl⟩
  · rintro ⟨t, ht, rfl⟩; exact ⟨t, ht, rfl⟩

/-- C3. Partition coverage and disjointness: for every worker count
`W ≥ 1` (with batch size `B = 100`), worker `i` starts at candidate
`B·i + 1`, each batch is `B` consecutive candidates, and the cursor
advances by `B·W` after each batch; for every `M ≥ 1`, the union over the
workers of the candidates of their first `M` batches is exactly
`{1, …, B·W·M}`, no candidate lies in two distinct (worker, batch) ranges,
and within one range a candidate occurs once. -/
theorem partition_coverage (W M : Nat) (hW : 1 ≤ W) (hM : 1 ≤ M) :
    (∀ i, workerStart i = 100 * i + 1) ∧
    (∀ s, cursorAdvance s W = s + 100 * W) ∧
    (∀ i j, i < W → batchStart W i (j + 1) = batchStart W i j + 100 * W) ∧
    (∀ n, (1 ≤ n ∧ n ≤ 100 * W * M) ↔
      ∃ i j, i < W ∧ j < M ∧ n ∈ batchCandidates (batchStart W i j)) ∧
    (∀ i j i' j' n, i < W → j < M → i' < W → j' < M →
      n ∈ batchCandidates (batchStart W i j) →
      n ∈ batchCandidates (batchStart W i' j') → i = i' ∧ j = j') := by
  refine ⟨fun i => rfl, fun s => rfl, fun i j _ => rfl, ?_, ?_⟩
  · intro n
    constructor
    · rintro ⟨h1, h2⟩
      set m := n - 1 with hm
      have hmlt : m < 100 * W * M := by omega
      set q := m / 100 with hq
      set t := m % 100 with ht
      have hqt : 100 * q + t = m := Nat.div_add_mod m 100
      have htlt : t < 100 := Nat.mod_lt _ (by omega)
      refine ⟨q % W, q / W, Nat.mod_lt _ (by omega), ?_, ?_⟩
      · have hqlt : q < W * M := by
          have : m < 100 * (W * M) := by
            calc m < 100 * W * M := hmlt
            _ = 100 * (W * M) := by ring
          exact Nat.div_lt_of_lt_mul (by omega)
        exact Nat.div_lt_of_lt_mul hqlt
      · rw [mem_batchCandidates]
        refine ⟨t, htlt, ?_⟩
        have hsplit : q % W + W * (q / W) = q := Nat.mod_add_div q W
        rw [batchStart_eq]
        calc n = 100 * q + t + 1 := by omega
        _ = 100 * (q % W + W * (q / W)) + t + 1 := by rw [hsplit]
        _ = 100 * (q % W) + 1 + q / W * (100 * W) + t := by ring
    · rintro ⟨i, j, hi, hj, hmem⟩
      rw [mem_batchCandidates] at hmem
      obtain ⟨t, htlt, rfl⟩ := hmem
      rw [batchStart_eq]
      constructor
      · omega
      · have h1 : 1 + i ≤ W := by omega
        have h2 : 1 + j ≤ M := by omega
        calc 100 * i + 1 + j * (100 * W) + t
            ≤ 100 * i + 100 + j * (100 * W) := by omega
        _ = 100 * (i + 1) + j * (100 * W) := by ring
        _ ≤ 100 * W + j * (100 * W) := by
              have : 100 * (i + 1) ≤ 100 * W := by omega
              omega
        _ = (j + 1) * (100 * W) := by ring
        _ ≤ M * (100 * W) := Nat.mul_le_mul_right _ (by omega)
        _ = 100 * W * M := by ring
  · intro i j i' j' n hi hj hi' hj' hmem hmem'
    rw [mem_batchCandidates] at hmem hmem'
    obtain ⟨t, htlt, hn⟩ := hmem
    obtain ⟨t', htlt', hn'⟩ := hmem'
    rw [batchStart_eq] at hn hn'
    have e1 : n = 100 * (i + W * j) + 1 + t := by rw [hn]; ring
    have e2 : n = 100 * (i' + W * j') + 1 + t' := by rw [hn']; ring
    have hq : i + W * j = i' + W * j' := by
      set a := i + W * j
      set a' := i' + W * j'
      omega
    have hmod : i = i' := by
      have m1 : (i + W * j) % W = i := by
        rw [Nat.add_mul_mod_self_left, Nat.mod_eq_of_lt hi]
      have m2 : (i' + W * j') % W = i' := by
        rw [Nat.add_mul_mod_self_left, Nat.mod_eq_of_lt hi']
      rw [← m1, ← m2, hq]
    refine ⟨hmod, ?_⟩
    have : W * j = W * j' := by omega
    exact Nat.eq_of_mul_eq_mul_left (by omega) this

/-- Witness for C3 at `W = 2`, `M = 3`. -/
theorem partition_coverage_witness :
    1 ≤ 2 ∧ 1 ≤ 3 ∧
    ((∀ i, workerStart i = 100 * i + 1) ∧
     (∀ s, cursorAdvance s 2 = s + 100 * 2) ∧
     (∀ i j, i < 2 → batchStart 2 i (j + 1) = batchStart 2 i j + 100 * 2) ∧
     (∀ n, (1 ≤ n ∧ n ≤ 100 * 2 * 3) ↔
       ∃ i j, i < 2 ∧ j < 3 ∧ n ∈ batchCandidates (batchStart 2 i j)) ∧
     (∀ i j i' j' n, i < 2 → j < 3 → i' < 2 → j' < 3 →
       n ∈ batchCandidates (batchStart 2 i j) →
       n ∈ batchCandidates (batchStart 2 i' j') → i = i' ∧ j = j')) :=
  ⟨by decide, by decide, partition_coverage 2 3 (by decide) (by decide)⟩

lemma eq_zero_iff_testBit (n : Nat) : n = 0 ↔ ∀ i, n.testBit i = false := by
  constructor
  · rintro rfl i; exact Nat.zero_testBit i
  · exact Nat.zero_of_testBit_eq_false

lemma testBit_byte_low {x X i : Nat} (hx : x < 256) (hi : i < 8) :
    (x + 256 * X).testBit i = x.testBit i := by
  have hmod : (x + 256 * X) % 2 ^ 8 = x := by omega
  have h := Nat.testBit_mod_two_pow (x + 256 * X) 8 i
  rw [hmod] at h
  simpa [hi] using h.symm

lemma testBit_byte_high {x X j : Nat} (hx : x < 256) :
    (x + 256 * X).testBit (8 + j) = X.testBit j := by
  have hdiv : (x + 256 * X) / 2 ^ 8 = X := by omega
  have h := Nat.testBit_shiftRight (x + 256 * X) (i := 8) (j := j)
  rw [Nat.shiftRight_eq_div_pow, hdiv] at h
  exact h.symm

/-- Splitting a bitwise-AND-is-zero test at a byte boundary. -/
lemma land_byte_split {x y X Y : Nat} (hx : x < 256) (hy : y < 256) :
    ((x + 256 * X) &&& (y + 256 * Y) = 0) ↔ (x &&& y = 0 ∧ X &&& Y = 0) := by
  simp only [eq_zero_iff_testBit, Nat.testBit_and]
  constructor
  · intro h
    refine ⟨fun i => ?_, fun j => ?_⟩
    · rcases Nat.lt_or_ge i 8 with hi | hi
      · have := h i
        rwa [testBit_byte_low hx hi, testBit_byte_low hy hi] at this
      · have hpow : (256 : Nat) ≤ 2 ^ i := by
          calc (256 : Nat) = 2 ^ 8 := by norm_num
          _ ≤ 2 ^ i := Nat.pow_le_pow_right (by norm_num) hi
        have hxb : x.testBit i = false := Nat.testBit_lt_two_pow (by omega)
        simp [hxb]
    · have := h (8 + j)
      rwa [testBit_byte_high hx, testBit_byte_high hy] at this
  · rintro ⟨h1, h2⟩ i
    rcases Nat.lt_or_ge i 8 with hi | hi
    · rw [testBit_byte_low hx hi, testBit_byte_low hy hi]
      exact h1 i
    · have hj : i = 8 + (i - 8) := by omega
      rw [hj, testBit_byte_high hx, testBit_byte_high hy]
      exact h2 (i - 8)

/-- The AND of two equal-length little-endian byte strings is zero exactly
when it is zero byte by byte. -/
lemma leVal_land_eq_zero :
    ∀ xs ys : List Nat, xs.length = ys.length →
      (∀ b ∈ xs, b < 256) → (∀ b ∈ ys, b < 256) →
      ((leVal xs &&& leVal ys = 0) ↔ ∀ i, xs.getD i 0 &&& ys.getD i 0 = 0)
  | [], [], _, _, _ => by simp [leVal]
  | [], y :: ys, h, _, _ => by simp at h
  | x :: xs, [], h, _, _ => by simp at h
  | x :: xs, y :: ys, h, hx, hy => by
    have hx0 : x < 256 := hx x (by simp)
    have hy0 : y < 256 := hy y (by simp)
    have ih := leVal_land_eq_zero xs ys (by simpa using h)
      (fun b hb => hx b (by simp [hb])) (fun b hb => hy b (by simp [hb]))
    simp only [leVal]
    rw [land_byte_split hx0 hy0, ih]
    constructor
    · rintro ⟨h0, hrest⟩ i
      cases i with
      | zero => simpa using h0
      | succ i => simpa using hrest i
    · intro hall
      refine ⟨by simpa using hall 0, fun i => by simpa using hall (i + 1)⟩

lemma getD_take_of_lt (l : List Nat) {n i : Nat} (h : i < n) :
    (l.take n).getD i 0 = l.getD i 0 := by
  simp [List.getD_eq_getElem?_getD, List.getElem?_take_of_lt h]

lemma getD_drop (l : List Nat) (n i : Nat) :
    (l.drop n).getD i 0 = l.getD (n + i) 0 := by
  simp [List.getD_eq_getElem?_getD, List.getElem?_drop]

lemma getD_of_len_le (l : List Nat) {i : Nat} (h : l.length ≤ i) :
    l.getD i 0 = 0 := by
  simp [List.getD_eq_getElem?_getD, List.getElem?_eq_none h]

/-- One 8-byte segment of the word-wise test, reduced to byte indices of
the whole 32-byte value. -/
lemma segment_land_iff (xs ys : List Nat) (k : Nat) (hk : k < 4)
    (hx : xs.length = 32) (hy : ys.length = 32)
    (hxb : ∀ b ∈ xs, b < 256) (hyb : ∀ b ∈ ys, b < 256) :
    (leVal ((xs.drop (8 * k)).take 8) &&& leVal ((ys.drop (8 * k)).take 8) = 0) ↔
      ∀ r < 8, xs.getD (8 * k + r) 0 &&& ys.getD (8 * k + r) 0 = 0 := by
  have hlx : ((xs.drop (8 * k)).take 8).length = 8 := by
    simp [List.length_take, List.length_drop, hx]; omega
  have hly : ((ys.drop (8 * k)).take 8).length = 8 := by
    simp [List.length_take, List.length_drop, hy]; omega
  rw [leVal_land_eq_zero _ _ (by rw [hlx, hly])
    (fun b hb => hxb b (List.mem_of_mem_drop (List.mem_of_mem_take hb)))
    (fun b hb => hyb b (List.mem_of_mem_drop (List.mem_of_mem_take hb)))]
  constructor
  · intro h r hr
    have := h r
    rwa [getD_take_of_lt _ hr, getD_take_of_lt _ hr, getD_drop, getD_drop] at this
  · intro h i
    rcases Nat.lt_or_ge i 8 with hi | hi
    · rw [getD_take_of_lt _ hi, getD_take_of_lt _ hi, getD_drop, getD_drop]
      exact h i hi
    · rw [getD_of_len_le _ (by omega), getD_of_len_le _ (by omega)]
      decide

/-- The worker's word-wise test on two 32-byte values is the byte-wise
test. -/
lemma checkValid_iff_bytes (xs ys : List Nat)
    (hx : xs.length = 32) (hy : ys.length = 32)
    (hxb : ∀ b ∈ xs, b < 256) (hyb : ∀ b ∈ ys, b < 256) :
    (checkValid (wordsOfBytes xs) (wordsOfBytes ys) = true) ↔
      ∀ i < 32, xs.getD i 0 &&& ys.getD i 0 = 0 := by
  have h0 := segment_land_iff xs ys 0 (by omega) hx hy hxb hyb
  have h1 := segment_land_iff xs ys 1 (by omega) hx hy hxb hyb
  have h2 := segment_land_iff xs ys 2 (by omega) hx hy hxb hyb
  have h3 := segment_land_iff xs ys 3 (by omega) hx hy hxb hyb
  simp only [checkValid, wordsOfBytes, List.zip, List.zipWith, List.all_cons,
    List.all_nil, Bool.and_true, Bool.and_eq_true, beq_iff_eq] at *
  norm_num at h0 h1 h2 h3 ⊢
  rw [h0, h1, h2, h3]
  constructor
  · rintro ⟨c0, c1, c2, c3⟩ i hi
    rcases Nat.lt_or_ge i 8 with h8 | h8
    · have := c0 i h8; simpa using this
    rcases Nat.lt_or_ge i 16 with h16 | h16
    · have := c1 (i - 8) (by omega)
      have he : 8 + (i - 8) = i := by omega
      rwa [he] at this
    rcases Nat.lt_or_ge i 24 with h24 | h24
    · have := c2 (i - 16) (by omega)
      have he : 16 + (i - 16) = i := by omega
      rwa [he] at this
    · have := c3 (i - 24) (by omega)
      have he : 24 + (i - 24) = i := by omega
      rwa [he] at this
  · intro h
    refine ⟨fun r hr => by simpa using h r (by omega),
            fun r hr => h (8 + r) (by omega),
            fun r hr => h (16 + r) (by omega),
            fun r hr => h (24 + r) (by omega)⟩

lemma maskByte_lt (Z i : Nat) : maskByte Z i < 256 := by
  simp only [maskByte]
  split_ifs <;> norm_num

lemma maskBytes_length (Z : Nat) : (maskBytes Z).length = 32 := by simp [maskBytes]

lemma maskBytes_bounded (Z : Nat) : ∀ b ∈ maskBytes Z, b < 256 := by
  intro b hb
  simp only [maskBytes, List.mem_map, List.mem_range] at hb
  obtain ⟨i, _, rfl⟩ := hb
  exact maskByte_lt Z i

lemma maskBytes_getD (Z : Nat) {i : Nat} (hi : i < 32) :
    (maskBytes Z).getD i 0 = maskByte Z i := by
  simp [maskBytes, List.getD_eq_getElem?_getD, List.getElem?_map,
    List.getElem?_range hi]

/-- `digestMatches` in terms of the 32 digest bytes against the 32 mask
bytes. -/
lemma digestMatches_iff_bytes (Z : Nat) (ds : List Nat)
    (hlen : ds.length = 32) (hb : ∀ b ∈ ds, b < 256) :
    (digestMatches ds Z = true) ↔ ∀ i < 32, ds.getD i 0 &&& maskByte Z i = 0 := by
  unfold digestMatches make_check_mask
  rw [checkValid_iff_bytes ds (maskBytes Z) hlen (maskBytes_length Z) hb
    (maskBytes_bounded Z)]
  constructor
  · intro h i hi
    have := h i hi
    rwa [maskBytes_getD Z hi] at this
  · intro h i hi
    rw [maskBytes_getD Z hi]
    exact h i hi

/-- The source's mask byte, characterized by which of the byte's two hex
characters (positions `2i` and `2i+1` of the 64-character string) fall in
the trailing `Z` characters. -/
lemma maskByte_cases (Z i : Nat) (hZ : Z ≤ 64) (hi : i < 32) :
    maskByte Z i =
      (if 64 - Z ≤ 2 * i then 255 else if 64 - Z = 2 * i + 1 then 15 else 0) := by
  simp only [maskByte]
  split_ifs <;> omega

lemma land_255_eq_zero {b : Nat} (hb : b < 256) : b &&& 255 = 0 ↔ b = 0 := by
  have h := Nat.and_pow_two_sub_one_eq_mod b 8
  norm_num at h
  rw [h]
  omega

lemma land_15_eq_zero (b : Nat) : b &&& 15 = 0 ↔ b % 16 = 0 := by
  have h := Nat.and_pow_two_sub_one_eq_mod b 4
  norm_num at h
  rw [h]

/-- Hex character `p` (0-indexed from the most significant) of the
canonical digest string: the high nibble of byte `p / 2` when `p` is
even, its low nibble when `p` is odd. -/
def nib (ds : List Nat) (p : Nat) : Nat :=
  if p % 2 = 0 then ds.getD (p / 2) 0 / 16 else ds.getD (p / 2) 0 % 16

lemma nib_even (ds : List Nat) (i : Nat) : nib ds (2 * i) = ds.getD i 0 / 16 := by
  unfold nib
  rw [if_pos (by omega)]
  have h : 2 * i / 2 = i := by omega
  rw [h]

lemma nib_odd (ds : List Nat) (i : Nat) : nib ds (2 * i + 1) = ds.getD i 0 % 16 := by
  unfold nib
  rw [if_neg (by omega)]
  have h : (2 * i + 1) / 2 = i := by omega
  rw [h]

/-- Byte-wise masking equals the trailing-nibble condition. -/
lemma bytes_iff_nibbles (Z : Nat) (hZ : Z ≤ 64) (ds : List Nat)
    (hb : ∀ b ∈ ds, b < 256) :
    (∀ i < 32, ds.getD i 0 &&& maskByte Z i = 0) ↔
      ∀ p < 64, 64 - Z ≤ p → nib ds p = 0 := by
  have hbd : ∀ i, ds.getD i 0 < 256 := by
    intro i
    rcases Nat.lt_or_ge i ds.length with h | h
    · have : ds.getD i 0 ∈ ds := by
        rw [List.getD_eq_getElem?_getD, List.getElem?_eq_getElem h]
        exact List.getElem_mem h
      exact hb _ this
    · rw [getD_of_len_le _ h]; omega
  constructor
  · intro h p hp hzp
    have hi : p / 2 < 32 := by omega
    have hbyte := h (p / 2) hi
    rw [maskByte_cases Z (p / 2) hZ hi] at hbyte
    rcases Nat.even_or_odd p with ⟨t, ht⟩ | ⟨t, ht⟩
    · have hpt : p = 2 * t := by omega
      have hdiv : p / 2 = t := by omega
      rw [hpt, nib_even]
      rw [hdiv] at hbyte
      rw [if_pos (by omega)] at hbyte
      have := (land_255_eq_zero (hbd t)).mp hbyte
      omega
    · have hpt : p = 2 * t + 1 := by omega
      have hdiv : p / 2 = t := by omega
      rw [hpt, nib_odd]
      rw [hdiv] at hbyte
      rcases Nat.lt_or_ge (64 - Z) (2 * t + 1) with hc | hc
      · rw [if_pos (by omega)] at hbyte
        have := (land_255_eq_zero (hbd t)).mp hbyte
        omega
      · have he : 64 - Z = 2 * t + 1 := by omega
        rw [if_neg (by omega), if_pos he] at hbyte
        exact (land_15_eq_zero _).mp hbyte
  · intro h i hi
    rw [maskByte_cases Z i hZ hi]
    split_ifs with h1 h2
    · rw [land_255_eq_zero (hbd i)]
      have hhi := h (2 * i) (by omega) (by omega)
      have hlo := h (2 * i + 1) (by omega) (by omega)
      rw [nib_even] at hhi
      rw [nib_odd] at hlo
      omega
    · rw [land_15_eq_zero]
      have hlo := h (2 * i + 1) (by omega) (by omega)
      rwa [nib_odd] at hlo
    · simp

/-- Lowercase hex character of a nibble, as Rust's `{:x}` renders it:
`0`-`9` then `a`-`f`. -/
def hexDigit (n : Nat) : Char :=
  if n < 10 then Char.ofNat (48 + n) else Char.ofNat (87 + n)

/-- The canonical 64-character lowercase rendering of the digest's 32
bytes (`format!("{hash:x}")`, `main.rs` line 76): each byte becomes its
high hex digit then its low hex digit. -/
def hexOfBytes (bs : List Nat) : List Char :=
  bs.flatMap fun b => [hexDigit (b / 16), hexDigit (b % 16)]

/-- The nibbles of a byte string in display order. -/
def nibList (bs : List Nat) : List Nat :=
  bs.flatMap fun b => [b / 16, b % 16]

/-- The string ends in at least `Z` zero characters. -/
def endsInZeros (Z : Nat) (s : List Char) : Prop :=
  ∀ c ∈ s.drop (s.length - Z), c = '0'

/-- Number of trailing `'0'` characters of the string. -/
def trailingZeros (s : List Char) : Nat :=
  (s.reverse.takeWhile fun c => c == '0').length

lemma hexOfBytes_eq_map (bs : List Nat) :
    hexOfBytes bs = (nibList bs).map hexDigit := by
  induction bs with
  | nil => rfl
  | cons b bs ih =>
    simp only [hexOfBytes, nibList] at ih ⊢
    simp [ih]

lemma nibList_length (bs : List Nat) : (nibList bs).length = 2 * bs.length := by
  induction bs with
  | nil => rfl
  | cons b bs ih => simp [nibList] at *; omega

lemma hexOfBytes_length (bs : List Nat) :
    (hexOfBytes bs).length = 2 * bs.length := by
  rw [hexOfBytes_eq_map, List.length_map, nibList_length]

lemma nibList_getD (bs : List Nat) :
    ∀ p, (nibList bs).getD p 0 = nib bs p := by
  induction bs with
  | nil =>
    intro p
    unfold nib
    rw [getD_of_len_le _ (by simp [nibList]), getD_of_len_le _ (by simp)]
    split_ifs <;> rfl
  | cons b bs ih =>
    intro p
    match p with
    | 0 => simp [nibList, nib]
    | 1 => simp [nibList, nib]
    | r + 2 =>
      have h1 : (nibList (b :: bs)).getD (r + 2) 0 = (nibList bs).getD r 0 := by
        simp [nibList]
      rw [h1, ih r]
      unfold nib
      have hm : (r + 2) % 2 = r % 2 := by omega
      have hd : (r + 2) / 2 = r / 2 + 1 := by omega
      rw [hm, hd]
      have hc : (b :: bs).getD (r / 2 + 1) 0 = bs.getD (r / 2) 0 := rfl
      rw [hc]

lemma nibList_lt (bs : List Nat) (hb : ∀ b ∈ bs, b < 256) :
    ∀ x ∈ nibList bs, x < 16 := by
  intro x hx
  simp only [nibList, List.mem_flatMap] at hx
  obtain ⟨b, hbm, hxm⟩ := hx
  have := hb b hbm
  simp only [List.mem_cons, List.mem_singleton] at hxm
  rcases hxm with rfl | rfl | h
  · omega
  · omega
  · simp at h

lemma hexDigit_eq_zero_iff {n : Nat} (hn : n < 16) : hexDigit n = '0' ↔ n = 0 := by
  have : ∀ m < 16, (hexDigit m = '0' ↔ m = 0) := by decide
  exact this n hn

/-- "Ends in at least `Z` zeros" in terms of character positions. -/
lemma endsInZeros_iff_getD (Z : Nat) (s : List Char) :
    endsInZeros Z s ↔
      ∀ p, s.length - Z ≤ p → p < s.length → s.getD p ' ' = '0' := by
  unfold endsInZeros
  constructor
  · intro h p hge hlt
    have hdl : p - (s.length - Z) < (s.drop (s.length - Z)).length := by
      rw [List.length_drop]; omega
    have hval := h _ (List.getElem_mem hdl)
    have h2 : (s.drop (s.length - Z))[p - (s.length - Z)]? = some '0' := by
      rw [List.getElem?_eq_getElem hdl, hval]
    rw [List.getElem?_drop] at h2
    have he : s.length - Z + (p - (s.length - Z)) = p := by omega
    rw [he] at h2
    rw [List.getD_eq_getElem?_getD, h2]
    rfl
  · intro h c hc
    rw [List.mem_iff_getElem?] at hc
    obtain ⟨j, hj⟩ := hc
    rw [List.getElem?_drop] at hj
    have hlt : s.length - Z + j < s.length := by
      by_contra hge2
      rw [List.getElem?_eq_none (by omega)] at hj
      exact Option.noConfusion hj
    have hgd := h (s.length - Z + j) (by omega) hlt
    rw [List.getD_eq_getElem?_getD, hj] at hgd
    simpa using hgd

lemma getD_lt_256 (ds : List Nat) (hb : ∀ b ∈ ds, b < 256) (i : Nat) :
    ds.getD i 0 < 256 := by
  rcases Nat.lt_or_ge i ds.length with h | h
  · have : ds.getD i 0 ∈ ds := by
      rw [List.getD_eq_getElem?_getD, List.getElem?_eq_getElem h]
      exact List.getElem_mem h
    exact hb _ this
  · rw [getD_of_len_le _ h]; omega

lemma nib_lt_16 (ds : List Nat) (hb : ∀ b ∈ ds, b < 256) (p : Nat) :
    nib ds p < 16 := by
  have := getD_lt_256 ds hb (p / 2)
  unfold nib
  split_ifs <;> omega

lemma hexOfBytes_getD (ds : List Nat) {p : Nat} (hp : p < 2 * ds.length) :
    (hexOfBytes ds).getD p ' ' = hexDigit (nib ds p) := by
  rw [hexOfBytes_eq_map]
  have hlt : p < (nibList ds).length := by rw [nibList_length]; omega
  rw [List.getD_eq_getElem?_getD, List.getElem?_map, List.getElem?_eq_getElem hlt]
  have he : (nibList ds)[p] = (nibList ds).getD p 0 := by
    rw [List.getD_eq_getElem?_getD, List.getElem?_eq_getElem hlt]
    rfl
  simp only [Option.map, Option.getD]
  rw [he, nibList_getD]

lemma take_all_zero_iff_takeWhile (r : List Char) :
    ∀ Z, Z ≤ r.length →
      ((∀ c ∈ r.take Z, c = '0') ↔ Z ≤ (r.takeWhile (fun c => c == '0')).length) := by
  induction r with
  | nil =>
    intro Z hZ
    have : Z = 0 := by simpa using hZ
    subst this
    simp
  | cons c r ih =>
    intro Z hZ
    cases Z with
    | zero => simp
    | succ Z =>
      rw [List.take_succ_cons, List.takeWhile_cons]
      by_cases hc : c = '0'
      · subst hc
        have hcond : ('0' == '0') = true := by decide
        rw [hcond]
        simp only [if_true, List.length_cons, List.mem_cons]
        have hZr : Z ≤ r.length := by simpa using hZ
        constructor
        · intro h
          have := (ih Z hZr).mp (fun x hx => h x (Or.inr hx))
          omega
        · intro h
          rintro x (rfl | hx)
          · rfl
          · exact (ih Z hZr).mpr (by omega) x hx
      · have hcond : (c == '0') = false := by simpa using hc
        rw [hcond]
        simp only [Bool.false_eq_true, if_false, List.length_nil, List.mem_cons]
        constructor
        · intro h
          exact absurd (h c (Or.inl rfl)) hc
        · intro h
          omega

lemma endsInZeros_iff_le_trailingZeros (Z : Nat) (s : List Char)
    (hZ : Z ≤ s.length) :
    endsInZeros Z s ↔ Z ≤ trailingZeros s := by
  unfold endsInZeros trailingZeros
  have hds : s.drop (s.length - Z) = (s.reverse.take Z).reverse := by
    rw [List.take_reverse, List.reverse_reverse]
  rw [hds]
  have hmr : (∀ c ∈ (s.reverse.take Z).reverse, c = '0') ↔
      ∀ c ∈ s.reverse.take Z, c = '0' := by
    constructor
    · intro h c hc; exact h c (by simpa using hc)
    · intro h c hc; exact h c (by simpa using hc)
  rw [hmr]
  exact take_all_zero_iff_takeWhile s.reverse Z (by simpa using hZ)

/-- C2. Match predicate equivalence: for every `0 ≤ Z ≤ 64` and every
256-bit digest (32 bytes), the worker's word-wise test
(`digest_word[k] & mask_word[k] == 0` for all four words, mask built for
`Z`) succeeds iff the digest's canonical hex string ends in at least `Z`
zero characters; equivalently, a digest whose hex string ends in exactly
`k` zero characters (`k = trailingZeros`) matches exactly the `Z ≤ k`. -/
theorem match_pred_equiv (Z : Nat) (hZ : Z ≤ 64) (ds : List Nat)
    (hlen : ds.length = 32) (hb : ∀ b ∈ ds, b < 256) :
    (digestMatches ds Z = true ↔ endsInZeros Z (hexOfBytes ds)) ∧
    (digestMatches ds Z = true ↔ Z ≤ trailingZeros (hexOfBytes ds)) := by
  have hslen : (hexOfBytes ds).length = 64 := by rw [hexOfBytes_length, hlen]
  have main : digestMatches ds Z = true ↔ endsInZeros Z (hexOfBytes ds) := by
    rw [digestMatches_iff_bytes Z ds hlen hb, bytes_iff_nibbles Z hZ ds hb,
      endsInZeros_iff_getD, hslen]
    constructor
    · intro h p hge hlt
      rw [hexOfBytes_getD ds (by omega), hexDigit_eq_zero_iff (nib_lt_16 ds hb p)]
      exact h p hlt hge
    · intro h p hlt hge
      have := h p hge hlt
      rwa [hexOfBytes_getD ds (by omega),
        hexDigit_eq_zero_iff (nib_lt_16 ds hb p)] at this
  refine ⟨main, main.trans ?_⟩
  exact endsInZeros_iff_le_trailingZeros Z _ (by omega)

/-- Witness for C2 at `Z = 1` on the all-zero digest. -/
theorem match_pred_equiv_witness :
    1 ≤ 64 ∧ (List.replicate 32 0 : List Nat).length = 32 ∧
    (∀ b ∈ (List.replicate 32 0 : List Nat), b < 256) ∧
    ((digestMatches (List.replicate 32 0) 1 = true ↔
        endsInZeros 1 (hexOfBytes (List.replicate 32 0))) ∧
     (digestMatches (List.replicate 32 0) 1 = true ↔
        1 ≤ trailingZeros (hexOfBytes (List.replicate 32 0)))) :=
  ⟨by decide, by decide, by decide,
    match_pred_equiv 1 (by decide) (List.replicate 32 0) (by decide) (by decide)⟩

/-!
SHA-256, modelled after FIPS 180-4.  The source delegates hashing to the
`sha2` crate (`Sha256`, `main.rs` lines 55-60); the crate is external to
this repository, so the compression function below is the reference
implementation of the algorithm the crate computes, also serving as the
embedding of the worker's digest computation.  All words are `Nat` taken
modulo `2^32`.
-/

/-- Right rotation of a 32-bit word by `r` positions (for `0 < r < 32`). -/
def rotr32 (r x : Nat) : Nat := x / 2 ^ r + x % 2 ^ r * 2 ^ (32 - r)

/-- 32-bit complement. -/
def not32 (x : Nat) : Nat := x ^^^ 0xffffffff

def bigSigma0 (x : Nat) : Nat := rotr32 2 x ^^^ rotr32 13 x ^^^ rotr32 22 x
def bigSigma1 (x : Nat) : Nat := rotr32 6 x ^^^ rotr32 11 x ^^^ rotr32 25 x
def smallSigma0 (x : Nat) : Nat := rotr32 7 x ^^^ rotr32 18 x ^^^ x / 2 ^ 3
def smallSigma1 (x : Nat) : Nat := rotr32 17 x ^^^ rotr32 19 x ^^^ x / 2 ^ 10

def ch32 (x y z : Nat) : Nat := (x &&& y) ^^^ (not32 x &&& z)
def maj32 (x y z : Nat) : Nat := (x &&& y) ^^^ (x &&& z) ^^^ (y &&& z)

/-- The 64 SHA-256 round constants (decimal, FIPS 180-4 §4.2.2). -/
def sha256K : List Nat :=
  [1116352408, 1899447441, 3049323471, 3921009573, 961987163, 1508970993,
   2453635748, 2870763221, 3624381080, 310598401, 607225278, 1426881987,
   1925078388, 2162078206, 2614888103, 3248222580, 3835390401, 4022224774,
   264347078, 604807628, 770255983, 1249150122, 1555081692, 1996064986,
   2554220882, 2821834349, 2952996808, 3210313671, 3336571891, 3584528711,
   113926993, 338241895, 666307205, 773529912, 1294757372, 1396182291,
   1695183700, 1986661051, 2177026350, 2456956037, 2730485921, 2820302411,
   3259730800, 3345764771, 3516065817, 3600352804, 4094571909, 275423344,
   430227734, 506948616, 659060556, 883997877, 958139571, 1322822218,
   1537002063, 1747873779, 1955562222, 2024104815, 2227730452, 2361852424,
   2428436474, 2756734187, 3204031479, 3329325298]

/-- The SHA-256 initial hash value (decimal, FIPS 180-4 §5.3.3). -/
def sha256H0 : List Nat :=
  [1779033703, 3144134277, 1013904242, 2773480762,
   1359893119, 2600822924, 528734635, 1541459225]

/-- Big-endian 32-bit word from the first four entries of a byte list. -/
def beWord (l : List Nat) : Nat :=
  l.getD 0 0 * 2 ^ 24 + l.getD 1 0 * 2 ^ 16 + l.getD 2 0 * 2 ^ 8 + l.getD 3 0

/-- Extend the 16 message words to 64 (the fuel counts the 48 added
words). -/
def sha256Schedule : Nat → List Nat → List Nat
  | 0, w => w
  | fuel + 1, w =>
    let t := w.length
    let wt := (smallSigma1 (w.getD (t - 2) 0) + w.getD (t - 7) 0 +
        smallSigma0 (w.getD (t - 15) 0) + w.getD (t - 16) 0) % 2 ^ 32
    sha256Schedule fuel (w ++ [wt])

/-- One SHA-256 round on the state `[a, b, c, d, e, f, g, h]`. -/
def sha256Round (wt kt : Nat) (st : List Nat) : List Nat :=
  match st with
  | [a, b, c, d, e, ef, eg, eh] =>
    let t1 := (eh + bigSigma1 e + ch32 e ef eg + kt + wt) % 2 ^ 32
    let t2 := (bigSigma0 a + maj32 a b c) % 2 ^ 32
    [(t1 + t2) % 2 ^ 32, a, b, c, (d + t1) % 2 ^ 32, e, ef, eg]
  | st => st

/-- Process one 64-byte block. -/
def sha256Compress (hs : List Nat) (block : List Nat) : List Nat :=
  let w0 := (List.range 16).map fun t => beWord (block.drop (4 * t))
  let w := sha256Schedule 48 w0
  let st := (w.zip sha256K).foldl (fun s p => sha256Round p.1 p.2 s) hs
  (hs.zip st).map fun p => (p.1 + p.2) % 2 ^ 32

/-- Split a byte list into 64-byte chunks (fuel = number of chunks). -/
def chunk64 : Nat → List Nat → List (List Nat)
  | 0, _ => []
  | fuel + 1, l => l.take 64 :: chunk64 fuel (l.drop 64)

/-- Merkle-Damgård padding: `0x80`, zeros to 56 mod 64, then the 64-bit
big-endian bit length. -/
def sha256Pad (msg : List Nat) : List Nat :=
  let L := msg.length
  let k := (119 - L % 64) % 64
  msg ++ 0x80 :: List.replicate k 0 ++
    (List.range 8).map fun i => 8 * L / 2 ^ (8 * (7 - i)) % 256

/-- SHA-256 of a byte string, as a list of 32 bytes. -/
def sha256 (msg : List Nat) : List Nat :=
  let padded := sha256Pad msg
  let hs := (chunk64 (padded.length / 64) padded).foldl sha256Compress sha256H0
  hs.flatMap fun w => [w / 2 ^ 24 % 256, w / 2 ^ 16 % 256, w / 2 ^ 8 % 256, w % 256]

/-- `n.to_le_bytes()` for a 64-bit `usize` (`main.rs` line 59): the
fixed-width 8-byte little-endian encoding. -/
def leBytes8 (n : Nat) : List Nat := (List.range 8).map fun i => n / 2 ^ (8 * i) % 256

lemma sha256Round_length (wt kt : Nat) (st : List Nat) :
    (sha256Round wt kt st).length = st.length := by
  unfold sha256Round
  split
  · simp
  · rfl

lemma foldl_round_length (l : List (Nat × Nat)) :
    ∀ st : List Nat,
      (l.foldl (fun s p => sha256Round p.1 p.2 s) st).length = st.length := by
  induction l with
  | nil => intro st; rfl
  | cons p l ih =>
    intro st
    rw [List.foldl_cons, ih, sha256Round_length]

lemma sha256Compress_length (hs block : List Nat) :
    (sha256Compress hs block).length = hs.length := by
  unfold sha256Compress
  rw [List.length_map, List.length_zip, foldl_round_length]
  omega

lemma foldl_compress_length (bs : List (List Nat)) :
    ∀ hs : List Nat, (bs.foldl sha256Compress hs).length = hs.length := by
  induction bs with
  | nil => intro hs; rfl
  | cons b bs ih =>
    intro hs
    rw [List.foldl_cons, ih, sha256Compress_length]

lemma flatMap4_length (l : List Nat) :
    (l.flatMap fun w =>
      [w / 2 ^ 24 % 256, w / 2 ^ 16 % 256, w / 2 ^ 8 % 256, w % 256]).length =
      4 * l.length := by
  induction l with
  | nil => rfl
  | cons w l ih => simp only [List.flatMap_cons, List.length_append, ih,
      List.length_cons, List.length_nil]; omega

lemma sha256_length (msg : List Nat) : (sha256 msg).length = 32 := by
  unfold sha256
  rw [flatMap4_length, foldl_compress_length]
  rfl

lemma sha256_bytes_lt (msg : List Nat) : ∀ b ∈ sha256 msg, b < 256 := by
  intro b hb
  unfold sha256 at hb
  simp only [List.mem_flatMap, List.mem_cons, List.mem_singleton] at hb
  obtain ⟨w, _, hcase⟩ := hb
  rcases hcase with rfl | rfl | rfl | rfl | h
  · exact Nat.mod_lt _ (by norm_num)
  · exact Nat.mod_lt _ (by norm_num)
  · exact Nat.mod_lt _ (by norm_num)
  · exact Nat.mod_lt _ (by norm_num)
  · simp at h

/-- The pair a worker pushes for a matching candidate `n`
(`main.rs` line 76): `(n, format!("{hash:x}"))`. -/
def workerMatch (n : Nat) : Nat × String :=
  (n, String.mk (hexOfBytes (sha256 (leBytes8 n))))

/-- The character is a lowercase hex digit: a decimal digit or one of
`a`-`f`. -/
def isLowercaseHex (c : Char) : Prop :=
  ('0' ≤ c ∧ c ≤ '9') ∨ ('a' ≤ c ∧ c ≤ 'f')

instance : DecidablePred isLowercaseHex := fun c => by
  unfold isLowercaseHex
  infer_instance

lemma hexDigit_mem_lowercase {n : Nat} (h : n < 16) :
    isLowercaseHex (hexDigit n) := by
  have hall : ∀ m < 16, isLowercaseHex (hexDigit m) := by decide
  exact hall n h

/-- C4. Digest correctness: for every candidate `n`, the hex string
paired with `n` in an emitted `Match` is the 64-character lowercase
hexadecimal rendering of the SHA-256 digest of `n`'s fixed-width
little-endian byte encoding; at the fixed candidate `1` it equals the
independently computed reference digest of the bytes
`01 00 00 00 00 00 00 00`. -/
theorem digest_correct :
    (∀ n, workerMatch n = (n, String.mk (hexOfBytes (sha256 (leBytes8 n)))) ∧
      (workerMatch n).2.length = 64 ∧
      ∀ c ∈ (workerMatch n).2.data, isLowercaseHex c) ∧
    (workerMatch 1).2 =
      "7c9fa136d4413fa6173637e883b6998d32e1d675f88cddff9dcbcf331820f4b8" := by
  constructor
  · intro n
    refine ⟨rfl, ?_, ?_⟩
    · show (hexOfBytes (sha256 (leBytes8 n))).length = 64
      rw [hexOfBytes_length, sha256_length]
    · intro c hc
      have hc2 : c ∈ hexOfBytes (sha256 (leBytes8 n)) := hc
      simp only [hexOfBytes, List.mem_flatMap, List.mem_cons,
        List.mem_singleton] at hc2
      obtain ⟨b, hbm, hcase⟩ := hc2
      have hblt := sha256_bytes_lt (leBytes8 n) b hbm
      rcases hcase with rfl | rfl | h
      · exact hexDigit_mem_lowercase (by omega)
      · exact hexDigit_mem_lowercase (by omega)
      · simp at h
  · decide

/-- One printed line (`main.rs` line 38): `println!("{n}: {hash}")` —
the decimal candidate, a colon, a space, the hex digest. -/
def formatMatch (m : Nat × String) : String := toString m.1 ++ ": " ++ m.2

/-- The coordinator's receive loop (`main.rs` lines 33-40): while
`count > 0`, receive; a successful receive is printed and decrements the
count; a failed receive (all senders gone — the message list exhausted)
is the panicking `.expect`, modelled as `Except.error` with the source's
diagnostic (a panic in the main thread aborts the process with a nonzero
exit status).  The accumulator collects printed lines in order. -/
def searchLoop : Nat → List (Nat × String) → List String → Except String (List String)
  | 0, _, acc => Except.ok acc.reverse
  | _ + 1, [], _ =>
    Except.error "Catastrophic failure, all worker threads are dead"
  | count + 1, m :: ms, acc => searchLoop count ms (formatMatch m :: acc)

/-- `search` (`main.rs` lines 31-41), given the messages that arrive on
the result channel in order: returns the lines printed to stdout, or the
panic diagnostic. -/
def search (count : Nat) (msgs : List (Nat × String)) : Except String (List String) :=
  searchLoop count msgs []

lemma searchLoop_ok :
    ∀ (K : Nat) (msgs : List (Nat × String)) (acc : List String),
      K ≤ msgs.length →
      searchLoop K msgs acc =
        Except.ok (acc.reverse ++ (msgs.take K).map formatMatch) := by
  intro K
  induction K with
  | zero => intro msgs acc _; simp [searchLoop]
  | succ K ih =>
    intro msgs acc h
    match msgs with
    | [] => simp at h
    | m :: ms =>
      rw [searchLoop, ih ms _ (by simpa using h), List.take_succ_cons]
      simp

lemma searchLoop_error :
    ∀ (K : Nat) (msgs : List (Nat × String)) (acc : List String),
      msgs.length < K →
      searchLoop K msgs acc =
        Except.error "Catastrophic failure, all worker threads are dead" := by
  intro K
  induction K with
  | zero => intro msgs acc h; simp at h
  | succ K ih =>
    intro msgs acc h
    match msgs with
    | [] => rfl
    | m :: ms => rw [searchLoop]; exact ih ms _ (by simpa using h)

/-- C5. Coordinator quota: given match count `K` and at least `K`
arriving matches, the coordinator prints exactly one line per received
match — the first `K` messages, in arrival order, each formatted
`"<decimal candidate>: <hex digest>"` (64 lowercase hex characters when
the received strings are such) — and terminates normally immediately
after the `K`-th line, reading no further messages. -/
theorem coordinator_quota (K : Nat) (msgs : List (Nat × String))
    (hK : K ≤ msgs.length)
    (hhex : ∀ m ∈ msgs, (m.2).length = 64 ∧ ∀ c ∈ (m.2).data, isLowercaseHex c) :
    search K msgs = Except.ok ((msgs.take K).map formatMatch) ∧
    ((msgs.take K).map formatMatch).length = K ∧
    ∀ line ∈ (msgs.take K).map formatMatch, ∃ (n : Nat) (hx : String),
      line = toString n ++ ": " ++ hx ∧ hx.length = 64 ∧
      ∀ c ∈ hx.data, isLowercaseHex c := by
  refine ⟨?_, ?_, ?_⟩
  · unfold search
    rw [searchLoop_ok K msgs [] hK]
    simp
  · rw [List.length_map, List.length_take]
    omega
  · intro line hline
    rw [List.mem_map] at hline
    obtain ⟨m, hm, rfl⟩ := hline
    have hmem : m ∈ msgs := List.mem_of_mem_take hm
    exact ⟨m.1, m.2, rfl, (hhex m hmem).1, (hhex m hmem).2⟩

/-- Witness for C5: `K = 2` with three queued matches. -/
theorem coordinator_quota_witness :
    (2 ≤ ([(5, String.mk (List.replicate 64 'a')),
           (7, String.mk (List.replicate 64 '0')),
           (9, String.mk (List.replicate 64 'f'))] : List (Nat × String)).length) ∧
    (search 2 [(5, String.mk (List.replicate 64 'a')),
               (7, String.mk (List.replicate 64 '0')),
               (9, String.mk (List.replicate 64 'f'))] =
      Except.ok ((([(5, String.mk (List.replicate 64 'a')),
                    (7, String.mk (List.replicate 64 '0')),
                    (9, String.mk (List.replicate 64 'f'))] :
          List (Nat × String)).take 2).map formatMatch) ∧
     ((([(5, String.mk (List.replicate 64 'a')),
         (7, String.mk (List.replicate 64 '0')),
         (9, String.mk (List.replicate 64 'f'))] :
          List (Nat × String)).take 2).map formatMatch).length = 2 ∧
     ∀ line ∈ (([(5, String.mk (List.replicate 64 'a')),
                 (7, String.mk (List.replicate 64 '0')),
                 (9, String.mk (List.replicate 64 'f'))] :
          List (Nat × String)).take 2).map formatMatch, ∃ (n : Nat) (hx : String),
       line = toString n ++ ": " ++ hx ∧ hx.length = 64 ∧
       ∀ c ∈ hx.data, isLowercaseHex c) :=
  ⟨by decide, coordinator_quota 2 _ (by decide) (by decide)⟩

/-- C7. Channel exhaustion: if fewer than `K` messages ever arrive (all
workers terminated before the quota), the coordinator's receive fails and
it aborts with the source's diagnostic — an `Except.error`, never a hang
and never a silently truncated `Except.ok`. -/
theorem channel_exhaustion (K : Nat) (msgs : List (Nat × String))
    (h : msgs.length < K) :
    search K msgs =
      Except.error "Catastrophic failure, all worker threads are dead" :=
  searchLoop_error K msgs [] h

/-- Witness for C7: one message queued, quota `K = 2`. -/
theorem channel_exhaustion_witness :
    (([(1, "ff")] : List (Nat × String)).length < 2) ∧
    search 2 [(1, "ff")] =
      Except.error "Catastrophic failure, all worker threads are dead" :=
  ⟨by decide, channel_exhaustion 2 [(1, "ff")] (by decide)⟩

/-- The matches a worker buffers during one batch
(`main.rs` lines 57-78): for each `n` in `start..start + BATCH_SIZE`,
hash `n`'s little-endian bytes and buffer `(n, format!("{hash:x}"))`
when the word-wise mask test passes. -/
def batchResults (Z start : Nat) : List (Nat × String) :=
  (batchCandidates start).filterMap fun n =>
    if digestMatches (sha256 (leBytes8 n)) Z then some (workerMatch n) else none

/-- The end-of-batch drain (`main.rs` lines 80-84): send each buffered
match in order; `false` means some send was refused and the worker
`return`ed at that point. -/
def drainSends (accept : Nat × String → Bool) : List (Nat × String) → Bool
  | [] => true
  | m :: ms => if accept m then drainSends accept ms else false

/-- One full iteration of the worker's infinite `loop` for the batch at
cursor `start`: hash the batch, then drain the buffer.  `none` means the
worker returned (shutdown, without error — the `return` at line 82);
`some s` means it continues with cursor `s`.  `accept` tells, for each
sent message, whether the channel still had a receiver. -/
def workerBatchStep (Z W : Nat) (accept : Nat × String → Bool)
    (start : Nat) : Option Nat :=
  if drainSends accept (batchResults Z start) then
    some (cursorAdvance start W)
  else
    none

lemma drainSends_false_iff (accept : Nat × String → Bool) :
    ∀ l : List (Nat × String),
      drainSends accept l = false ↔ ∃ m ∈ l, accept m = false := by
  intro l
  induction l with
  | nil => simp [drainSends]
  | cons m ms ih =>
    rw [drainSends]
    by_cases hm : accept m = true
    · rw [if_pos hm, ih]
      constructor
      · rintro ⟨x, hx, hax⟩
        exact ⟨x, List.mem_cons_of_mem m hx, hax⟩
      · rintro ⟨x, hx, hax⟩
        rcases List.mem_cons.mp hx with rfl | hx2
        · rw [hm] at hax; exact absurd hax (by simp)
        · exact ⟨x, hx2, hax⟩
    · rw [if_neg hm]
      simp only [true_iff]
      exact ⟨m, List.mem_cons_self m ms, by simpa using hm⟩

/-- C6. Worker shutdown: a worker's loop iteration ends the worker
(`none`) exactly when the channel refuses one of the batch's buffered
sends, and the worker then returns without error; in every other case the
iteration continues to the next batch with the cursor advanced by
`BATCH_SIZE * W` — there is no other stop condition or cancellation
signal in the loop. -/
theorem worker_shutdown (Z W : Nat) (accept : Nat × String → Bool)
    (start : Nat) :
    (workerBatchStep Z W accept start = none ↔
      ∃ m ∈ batchResults Z start, accept m = false) ∧
    (∀ s, workerBatchStep Z W accept start = some s → s = start + 100 * W) := by
  constructor
  · unfold workerBatchStep
    by_cases hd : drainSends accept (batchResults Z start) = true
    · rw [if_pos hd]
      constructor
      · intro h
        exact absurd h (by simp)
      · intro hex
        have hfalse := (drainSends_false_iff accept (batchResults Z start)).mpr hex
        rw [hd] at hfalse
        exact absurd hfalse (by simp)
    · rw [if_neg hd]
      constructor
      · intro _
        exact (drainSends_false_iff accept (batchResults Z start)).mp
          (by simpa using hd)
      · intro _
        rfl
  · intro s hs
    unfold workerBatchStep at hs
    by_cases hd : drainSends accept (batchResults Z start) = true
    · rw [if_pos hd] at hs
      have : cursorAdvance start W = s := by injection hs
      rw [← this]
      rfl
    · rw [if_neg hd] at hs
      exact absurd hs (by simp)

/-- `main` (`main.rs` lines 22-28): the worker count handed to `search`
is the raw `-W` argument when present, else the CPU count — no
validation, no substitution. -/
def mainWorkerCount (argWorkers : Option Nat) (numCpus : Nat) : Nat :=
  argWorkers.getD numCpus

/-- The worker indices `spawn_workers` spawns (`main.rs` line 49):
`for i in 0..workers`. -/
def spawnedWorkers (workers : Nat) : List Nat := List.range workers

/-- Counterexample to C9: with `-W 0` the program neither rejects the
worker count nor substitutes 1 — `search` runs with zero workers.  No
worker thread exists, so no sender exists: the channel yields no message,
and the coordinator (with the default `K = 1`) immediately hits the
channel-exhaustion panic instead of an upfront rejection. -/
theorem zero_workers_counterexample :
    mainWorkerCount (some 0) 8 = 0 ∧
    spawnedWorkers (mainWorkerCount (some 0) 8) = [] ∧
    search 1 [] =
      Except.error "Catastrophic failure, all worker threads are dead" :=
  ⟨rfl, rfl, searchLoop_error 1 [] [] (by decide)⟩

/-- C9 (amended). Zero worker count: a supplied worker count of 0 is
passed through unvalidated; `spawn_workers` spawns no worker, and the
search runs with no workers: for any requested match count `K ≥ 1` the
coordinator's first receive fails and the process aborts with the
catastrophic-failure diagnostic (for `K = 0` it would print nothing and
exit normally). -/
theorem zero_workers_passthrough (numCpus K : Nat) (hK : 1 ≤ K) :
    mainWorkerCount (some 0) numCpus = 0 ∧
    spawnedWorkers (mainWorkerCount (some 0) numCpus) = [] ∧
    search K [] =
      Except.error "Catastrophic failure, all worker threads are dead" :=
  ⟨rfl, rfl, searchLoop_error K [] [] (by simp only [List.length_nil]; omega)⟩

/-- Witness for amended C9 at `numCpus = 8`, `K = 1`. -/
theorem zero_workers_passthrough_witness :
    1 ≤ 1 ∧
    (mainWorkerCount (some 0) 8 = 0 ∧
     spawnedWorkers (mainWorkerCount (some 0) 8) = [] ∧
     search 1 [] =
       Except.error "Catastrophic failure, all worker threads are dead") :=
  ⟨by decide, zero_workers_passthrough 8 1 (by decide)⟩
